import Mathlib

/-!
Verification of `src/synchronized.ts` (`class Synchronized`), a promise-based
mutual-exclusion queue.

The TypeScript class holds two fields:

  private queue: (() => Promise<any>)[];
  private isRunning: boolean;

`execute(asyncFunction)` returns `new Promise((resolve, reject) => ...)`; the
executor pushes a wrapper closure onto `queue` and, if `!isRunning`, calls
`processQueue()`.  The wrapper is

  async () => {
    try { const result = await asyncFunction(); resolve(result); }
    catch (error) { reject(error); }
    this.processQueue();
  }

and `processQueue` is

  if (this.queue.length && (this.isRunning = true) != null) {
    const fn = this.queue.shift();
    if (fn) { await fn(); }
  } else { this.isRunning = false; }

JavaScript is single threaded with run-to-completion semantics: the shared
state (`queue`, `isRunning`) is mutated only inside two kinds of atomic
synchronous extents,

  (a) a call to `execute` (push + the synchronous prefix of `processQueue`,
      which on a non-empty queue sets `isRunning`, shifts the head and invokes
      the head wrapper, which in turn synchronously invokes `asyncFunction`
      up to its first suspension), and
  (b) the resumption of a wrapper when `await asyncFunction()` settles
      (the try/catch delivers the outcome to `resolve`/`reject`, then
      `processQueue()` runs synchronously and either starts the next wrapper
      or clears `isRunning`).

We embed the class as a labelled transition system whose two events are
exactly these two extents.  The state carries the two TypeScript fields
verbatim (`queue`, `isRunning`, with queued wrappers identified by submission
sequence numbers) plus append-only history variables that record the
observable behaviour needed to state the spec's properties: which wrappers
are currently in flight (`running` - kept as a *list* so that mutual
exclusion is a theorem about reachable states, not a baked-in assumption),
the order in which wrappers began executing (`started`), and the settlement
delivered to each caller's promise (`done`).
-/

namespace Synchronized

/-- Behaviour of one caller-supplied `asyncFunction` as observed by the
wrapper's `await asyncFunction()`: it resolves with a value, rejects with an
error, or throws synchronously before returning a promise.  Values and errors
are represented by `Nat` codes; the queue never inspects them. -/
inductive WorkResult where
  | value (v : Nat)
  | rejection (e : Nat)
  | syncThrow (e : Nat)
deriving DecidableEq, Repr

/-- How the promise returned by `execute` settles. -/
inductive Settlement where
  | resolved (v : Nat)
  | rejected (e : Nat)
deriving DecidableEq, Repr

/-- The wrapper body `try { const result = await asyncFunction(); resolve(result) }
catch (error) { reject(error) }`: a resolved promise reaches `resolve` with the
identical value; a rejection of the awaited promise and a synchronous throw
during the evaluation of `asyncFunction()` both land in the `catch` block and
reach `reject` with the identical error. -/
def wrapperSettle : WorkResult → Settlement
  | WorkResult.value v => Settlement.resolved v
  | WorkResult.rejection e => Settlement.rejected e
  | WorkResult.syncThrow e => Settlement.rejected e

/-- State of one `Synchronized` instance.  `queue` and `isRunning` are the two
TypeScript fields (queued wrappers named by submission sequence numbers).
`running`, `started`, `done` and `nextId` are history variables: `running`
lists the wrappers whose `await fn()` is in flight, `started` records wrapper
ids in the order `processQueue` invoked them, `done` records, per completed
wrapper, the outcome of its `asyncFunction` and the settlement its
`resolve`/`reject` delivered, and `nextId` counts submissions. -/
structure SyncState where
  queue : List Nat
  isRunning : Bool
  running : List Nat
  started : List Nat
  done : List (Nat × WorkResult × Settlement)
  nextId : Nat
deriving DecidableEq, Repr

/-- Ids whose completion channel has been signalled, in completion order. -/
def doneIds (s : SyncState) : List Nat :=
  s.done.map (fun x => x.1)

/-- The constructor: `this.queue = []; this.isRunning = false;`. -/
def initState : SyncState :=
  { queue := [], isRunning := false, running := [], started := [], done := [], nextId := 0 }

/-- The synchronous part of `processQueue`: on a non-empty queue the guard
`this.queue.length && (this.isRunning = true) != null` sets `isRunning := true`
(the assignment yields `true`, and `true != null` holds), `shift()` removes the
head, and `fn()` starts the head wrapper (recorded in `running`/`started`);
on an empty queue the `&&` short-circuits and the `else` branch sets
`isRunning := false`. -/
def processQueue (s : SyncState) : SyncState :=
  match s.queue with
  | id :: rest =>
      { s with queue := rest, isRunning := true,
               running := s.running ++ [id], started := s.started ++ [id] }
  | [] => { s with isRunning := false }

/-- The push performed by the executor of `execute`:
`this.queue.push(async () => ...)` appends one fresh wrapper at the tail. -/
def pushItem (s : SyncState) : SyncState :=
  { s with queue := s.queue ++ [s.nextId], nextId := s.nextId + 1 }

/-- The full synchronous extent of a call to `execute`: push the wrapper, then
`if (!this.isRunning) { this.processQueue(); }`.  The `processQueue` call is
not deferred: on an idle instance it runs synchronously inside the `execute`
call, so the submitted work's synchronous prefix begins before `execute`
returns. -/
def executeStep (s : SyncState) : SyncState :=
  let s1 := pushItem s
  if s1.isRunning then s1 else processQueue s1

/-- The resumption of the head in-flight wrapper when its `await
asyncFunction()` settles with result `r`: the try/catch signals its own
promise via `wrapperSettle` (recorded in `done`) and then calls
`this.processQueue()`.  When nothing is in flight no wrapper can resume, so
the step is a no-op. -/
def completeStep (s : SyncState) (r : WorkResult) : SyncState :=
  match s.running with
  | [] => s
  | id :: rest =>
      processQueue { s with running := rest,
                            done := s.done ++ [(id, r, wrapperSettle r)] }

/-- The two kinds of atomic synchronous extents that touch the shared state. -/
inductive Event where
  | submit
  | complete (r : WorkResult)
deriving DecidableEq, Repr

def step (s : SyncState) : Event → SyncState
  | Event.submit => executeStep s
  | Event.complete r => completeStep s r

/-- Run a trace of events from a state. -/
def run (s : SyncState) : List Event → SyncState
  | [] => s
  | e :: es => run (step s e) es

/-- Drain: deliver a list of work outcomes to the successive in-flight
wrappers (the environment's part of liveness: every started work eventually
settles). -/
def drainAll (s : SyncState) : List WorkResult → SyncState
  | [] => s
  | r :: rs => drainAll (completeStep s r) rs

/-- The inductive invariant of reachable states.

`excl`: at most one wrapper is in flight (mutual exclusion).
`idle_empty`: when `isRunning` is false the queue is empty (no stranded item).
`run_iff`: `isRunning` is true exactly when a wrapper is in flight.
`order`: signalled ids, then in-flight ids, then queued ids, form exactly the
submission sequence `0, 1, ..., nextId - 1` in order (FIFO, no loss, no
duplication).
`started_eq`: the ids that began executing are the signalled ones followed by
the in-flight ones.
`settle_ok`: every recorded settlement is `wrapperSettle` of that wrapper's
work outcome. -/
structure Inv (s : SyncState) : Prop where
  excl : s.running.length ≤ 1
  idle_empty : s.isRunning = false → s.queue = []
  run_iff : s.isRunning = true ↔ s.running ≠ []
  order : doneIds s ++ s.running ++ s.queue = List.range s.nextId
  started_eq : s.started = doneIds s ++ s.running
  settle_ok : ∀ x ∈ s.done, x.2.2 = wrapperSettle x.2.1

theorem Inv_init : Inv initState := by
  refine ⟨?_, ?_, ?_, ?_, ?_, ?_⟩ <;> simp [initState, doneIds]

theorem Inv_submit {s : SyncState} (h : Inv s) : Inv (executeStep s) := by
  obtain ⟨q, flag, rn, st, dn, n⟩ := s
  cases flag with
  | false =>
      have hq : q = [] := h.idle_empty rfl
      have hrn : rn = [] := by
        by_contra hne
        have : False := by simpa using h.run_iff.mpr hne
        exact this
      subst hq; subst hrn
      have ho : List.map (fun x => x.1) dn = List.range n := by
        simpa [doneIds] using h.order
      have hst : st = List.map (fun x => x.1) dn := by
        simpa [doneIds] using h.started_eq
      have hE : executeStep ⟨[], false, [], st, dn, n⟩ =
          ⟨[], true, [n], st ++ [n], dn, n + 1⟩ := rfl
      rw [hE]
      refine ⟨?_, ?_, ?_, ?_, ?_, ?_⟩
      · simp
      · intro hh; simp at hh
      · simp
      · simp [doneIds, List.range_succ, ho]
      · simp [doneIds, hst]
      · exact h.settle_ok
  | true =>
      have hE : executeStep ⟨q, true, rn, st, dn, n⟩ =
          ⟨q ++ [n], true, rn, st, dn, n + 1⟩ := rfl
      rw [hE]
      refine ⟨h.excl, ?_, ?_, ?_, h.started_eq, h.settle_ok⟩
      · intro hh; simp at hh
      · exact h.run_iff
      · have ho := h.order
        simp only [doneIds] at ho ⊢
        rw [List.range_succ, ← ho]
        simp

theorem Inv_complete {s : SyncState} (r : WorkResult) (h : Inv s) :
    Inv (completeStep s r) := by
  obtain ⟨q, flag, rn, st, dn, n⟩ := s
  cases rn with
  | nil => simpa [completeStep] using h
  | cons i rest =>
      have hrest : rest = [] := by
        have hx : (i :: rest).length ≤ 1 := h.excl
        simp only [List.length_cons] at hx
        exact List.eq_nil_of_length_eq_zero (by omega)
      subst hrest
      have hsettle : ∀ x ∈ dn ++ [(i, r, wrapperSettle r)],
          x.2.2 = wrapperSettle x.2.1 := by
        intro x hx
        rcases List.mem_append.mp hx with hx1 | hx1
        · exact h.settle_ok x hx1
        · have hx2 : x = (i, r, wrapperSettle r) := by simpa using hx1
          rw [hx2]
      cases q with
      | nil =>
          have ho : List.map (fun x => x.1) dn ++ [i] = List.range n := by
            simpa [doneIds] using h.order
          have hst : st = List.map (fun x => x.1) dn ++ [i] := by
            simpa [doneIds] using h.started_eq
          have hE : completeStep ⟨[], flag, [i], st, dn, n⟩ r =
              ⟨[], false, [], st, dn ++ [(i, r, wrapperSettle r)], n⟩ := rfl
          rw [hE]
          refine ⟨?_, ?_, ?_, ?_, ?_, hsettle⟩
          · simp
          · intro _; rfl
          · simp
          · simpa [doneIds] using ho
          · simpa [doneIds] using hst
      | cons a as =>
          have ho : List.map (fun x => x.1) dn ++ i :: a :: as = List.range n := by
            simpa [doneIds] using h.order
          have hst : st = List.map (fun x => x.1) dn ++ [i] := by
            simpa [doneIds] using h.started_eq
          have hE : completeStep ⟨a :: as, flag, [i], st, dn, n⟩ r =
              ⟨as, true, [a], st ++ [a], dn ++ [(i, r, wrapperSettle r)], n⟩ := rfl
          rw [hE]
          refine ⟨?_, ?_, ?_, ?_, ?_, hsettle⟩
          · simp
          · intro hh; simp at hh
          · simp
          · simpa [doneIds] using ho
          · simp [doneIds, hst]

theorem Inv_step (e : Event) {s : SyncState} (h : Inv s) : Inv (step s e) := by
  cases e with
  | submit => exact Inv_submit h
  | complete r => exact Inv_complete r h

theorem Inv_run_of (tr : List Event) : ∀ s : SyncState, Inv s → Inv (run s tr) := by
  induction tr with
  | nil => intro s h; exact h
  | cons e es ih => intro s h; exact ih (step s e) (Inv_step e h)

theorem Inv_run (tr : List Event) : Inv (run initState tr) :=
  Inv_run_of tr initState Inv_init

theorem completeStep_nextId (s : SyncState) (r : WorkResult) :
    (completeStep s r).nextId = s.nextId := by
  obtain ⟨q, flag, rn, st, dn, n⟩ := s
  cases rn with
  | nil => rfl
  | cons i rest =>
      cases q with
      | nil => rfl
      | cons a as => rfl

theorem drainAll_nextId (rs : List WorkResult) :
    ∀ s : SyncState, (drainAll s rs).nextId = s.nextId := by
  induction rs with
  | nil => intro s; rfl
  | cons r rs ih =>
      intro s
      calc (drainAll (completeStep s r) rs).nextId
          = (completeStep s r).nextId := ih (completeStep s r)
        _ = s.nextId := completeStep_nextId s r

theorem Inv_drainAll (rs : List WorkResult) :
    ∀ s : SyncState, Inv s → Inv (drainAll s rs) := by
  induction rs with
  | nil => intro s h; exact h
  | cons r rs ih => intro s h; exact ih (completeStep s r) (Inv_complete r h)

/-- Progress: from any state satisfying the invariant, delivering at least as
many work outcomes as there are pending wrappers (in flight plus queued)
leaves the instance fully drained. -/
theorem drain_empties (rs : List WorkResult) :
    ∀ s : SyncState, Inv s →
      s.running.length + s.queue.length ≤ rs.length →
      (drainAll s rs).running = [] ∧ (drainAll s rs).queue = [] := by
  induction rs with
  | nil =>
      intro s h hle
      simp only [List.length_nil, Nat.le_zero] at hle
      have h1 : s.running = [] := List.eq_nil_of_length_eq_zero (by omega)
      have h2 : s.queue = [] := List.eq_nil_of_length_eq_zero (by omega)
      exact ⟨h1, h2⟩
  | cons r rs ih =>
      intro s h hle
      obtain ⟨q, flag, rn, st, dn, n⟩ := s
      cases rn with
      | nil =>
          have hflag : flag = false := by
            cases hf : flag
            · rfl
            · have := h.run_iff.mp hf
              simp at this
          subst hflag
          have hq : q = [] := h.idle_empty rfl
          subst hq
          have hstep : completeStep ⟨[], false, [], st, dn, n⟩ r =
              ⟨[], false, [], st, dn, n⟩ := rfl
          show (drainAll (completeStep ⟨[], false, [], st, dn, n⟩ r) rs).running = [] ∧ _
          rw [hstep]
          exact ih ⟨[], false, [], st, dn, n⟩ h (by simp)
      | cons i rest =>
          have hrest : rest = [] := by
            have hx : (i :: rest).length ≤ 1 := h.excl
            simp only [List.length_cons] at hx
            exact List.eq_nil_of_length_eq_zero (by omega)
          subst hrest
          have hInv2 := Inv_complete r h
          cases q with
          | nil =>
              have hm : (completeStep ⟨[], flag, [i], st, dn, n⟩ r).running.length +
                  (completeStep ⟨[], flag, [i], st, dn, n⟩ r).queue.length ≤ rs.length := by
                show (0 : Nat) + 0 ≤ rs.length
                omega
              exact ih _ hInv2 hm
          | cons a as =>
              have hm : (completeStep ⟨a :: as, flag, [i], st, dn, n⟩ r).running.length +
                  (completeStep ⟨a :: as, flag, [i], st, dn, n⟩ r).queue.length ≤ rs.length := by
                show [a].length + as.length ≤ rs.length
                simp only [List.length_cons, List.length_singleton] at hle ⊢
                omega
              exact ih _ hInv2 hm

/-- A left factor of `List.range n` is itself an initial range. -/
theorem append_eq_range_left {l1 l2 : List Nat} {n : Nat}
    (h : l1 ++ l2 = List.range n) : l1 = List.range l1.length := by
  have hlen : l1.length + l2.length = n := by
    have := congrArg List.length h
    simpa using this
  have h1 : l1 = (List.range n).take l1.length := by
    rw [← h, List.take_left]
  rw [List.take_range] at h1
  rw [min_eq_left (by omega : l1.length ≤ n)] at h1
  exact h1

/-- C1: the promise returned by `execute` is transparent: in every reachable
state, every completed wrapper whose `asyncFunction` produced the value `v`
had its promise resolved with that identical `v`, and every wrapper whose
`asyncFunction` failed with error `e` had its promise rejected with that
identical `e` - the queue never transforms the value nor replaces, wraps or
swallows the error. -/
theorem execute_transparent (tr : List Event) (i : Nat) (r : WorkResult)
    (c : Settlement) (h : (i, r, c) ∈ (run initState tr).done) :
    (∀ v, r = WorkResult.value v → c = Settlement.resolved v) ∧
    (∀ e, r = WorkResult.rejection e → c = Settlement.rejected e) := by
  have hc : c = wrapperSettle r := (Inv_run tr).settle_ok (i, r, c) h
  subst hc
  constructor
  · intro v hv; rw [hv]; rfl
  · intro e he; rw [he]; rfl

theorem execute_transparent_witness :
    Settlement.resolved 7 = Settlement.resolved 7 :=
  (execute_transparent [Event.submit, Event.complete (WorkResult.value 7)] 0
    (WorkResult.value 7) (Settlement.resolved 7) (by decide)).1 7 rfl

/-- C3: mutual exclusion: in every reachable state of an instance, at most
one wrapper is in flight - the execution intervals of two submitted
operations never overlap, since `processQueue` starts a new wrapper only in
the submit step of an idle instance (nothing in flight) or in the completion
step of the previously in-flight wrapper (after its promise settled). -/
theorem mutual_exclusion (tr : List Event) :
    (run initState tr).running.length ≤ 1 :=
  (Inv_run tr).excl

/-- C5: idle/draining state machine: a newly constructed instance is idle
(empty queue, `isRunning` false); `processQueue` on an empty queue only
clears `isRunning` and stops; a submit while `isRunning` is true performs
only the push (`executeStep` reduces to `pushItem`); and a submit on an
instance with `isRunning` false starts a new drain loop, leaving `isRunning`
true. -/
theorem state_machine :
    initState.queue = [] ∧ initState.isRunning = false ∧
    (∀ s : SyncState, s.queue = [] → processQueue s = { s with isRunning := false }) ∧
    (∀ s : SyncState, s.isRunning = true → executeStep s = pushItem s) ∧
    (∀ s : SyncState, s.isRunning = false → (executeStep s).isRunning = true) := by
  refine ⟨rfl, rfl, ?_, ?_, ?_⟩
  · intro s hq
    obtain ⟨q, flag, rn, st, dn, n⟩ := s
    simp only at hq
    subst hq
    rfl
  · intro s hflag
    obtain ⟨q, flag, rn, st, dn, n⟩ := s
    simp only at hflag
    subst hflag
    rfl
  · intro s hflag
    obtain ⟨q, flag, rn, st, dn, n⟩ := s
    simp only at hflag
    subst hflag
    cases q with
    | nil => rfl
    | cons a as => rfl

theorem state_machine_witness :
    processQueue initState = { initState with isRunning := false } ∧
    (executeStep initState).isRunning = true :=
  ⟨state_machine.2.2.1 initState rfl, state_machine.2.2.2.2 initState rfl⟩

/-- C6: no stranded item: in every reachable quiescent state, if the
`isRunning` flag is false then the queue is empty (and nothing is in
flight) - it never happens that an item sits in the queue with the flag
cleared and no drain step left to pick it up.  A submit arriving when the
loop is about to stop either finds the flag still true (the same loop's
`processQueue` picks it up) or finds it false and starts a new loop itself. -/
theorem no_stranded_item (tr : List Event)
    (h : (run initState tr).isRunning = false) :
    (run initState tr).queue = [] ∧ (run initState tr).running = [] := by
  have hI := Inv_run tr
  refine ⟨hI.idle_empty h, ?_⟩
  by_contra hne
  have : (run initState tr).isRunning = true := hI.run_iff.mpr hne
  rw [h] at this
  exact Bool.false_ne_true this

theorem no_stranded_item_witness :
    (run initState [Event.submit, Event.complete (WorkResult.value 3)]).queue = [] ∧
    (run initState [Event.submit, Event.complete (WorkResult.value 3)]).running = [] :=
  no_stranded_item [Event.submit, Event.complete (WorkResult.value 3)] (by decide)

/-- C7: frame property of submit: the push performed by `execute` appends
exactly one fresh wrapper at the tail of the queue and changes nothing else -
`isRunning`, the in-flight wrapper, the start history and every previously
recorded settlement are untouched, and all previously queued items keep their
positions; and the whole submit step is exactly that push followed, only when
the instance was idle, by the drain-loop step `processQueue` - the only
place entries are removed. -/
theorem submit_frame (s : SyncState) :
    (pushItem s).queue = s.queue ++ [s.nextId] ∧
    (pushItem s).isRunning = s.isRunning ∧
    (pushItem s).running = s.running ∧
    (pushItem s).started = s.started ∧
    (pushItem s).done = s.done ∧
    executeStep s = (if s.isRunning then pushItem s else processQueue (pushItem s)) :=
  ⟨rfl, rfl, rfl, rfl, rfl, rfl⟩

/-- C2: FIFO and exactly-once execution: in every reachable state the
wrappers that have begun executing are exactly the first submissions in
submission order (the drain loop removes and runs only the head, never
reorders, never skips); and once the environment delivers outcomes for all
pending work, every submitted wrapper has begun executing exactly once, in
exactly submission order `0, 1, ..., nextId - 1`. -/
theorem fifo_exactly_once (tr : List Event) (rs : List WorkResult)
    (h : (run initState tr).running.length + (run initState tr).queue.length ≤ rs.length) :
    (run initState tr).started = List.range (run initState tr).started.length ∧
    (drainAll (run initState tr) rs).started = List.range (run initState tr).nextId ∧
    (drainAll (run initState tr) rs).started.Nodup := by
  have hI : Inv (run initState tr) := Inv_run tr
  have h1 : (run initState tr).started ++ (run initState tr).queue
      = List.range (run initState tr).nextId := by
    rw [hI.started_eq]
    exact hI.order
  have hpre := append_eq_range_left h1
  obtain ⟨he1, he2⟩ := drain_empties rs _ hI h
  have hI2 : Inv (drainAll (run initState tr) rs) := Inv_drainAll rs _ hI
  have hfin : (drainAll (run initState tr) rs).started
      = List.range (drainAll (run initState tr) rs).nextId := by
    have ho := hI2.order
    have hst := hI2.started_eq
    rw [he1, he2] at ho
    rw [he1] at hst
    simp only [List.append_nil] at ho hst
    rw [hst, ho]
  rw [drainAll_nextId rs (run initState tr)] at hfin
  refine ⟨hpre, hfin, ?_⟩
  rw [hfin]
  exact List.nodup_range _

theorem fifo_exactly_once_witness :
    (run initState [Event.submit, Event.submit]).started =
      List.range (run initState [Event.submit, Event.submit]).started.length ∧
    (drainAll (run initState [Event.submit, Event.submit])
        [WorkResult.value 1, WorkResult.value 2]).started =
      List.range (run initState [Event.submit, Event.submit]).nextId ∧
    (drainAll (run initState [Event.submit, Event.submit])
        [WorkResult.value 1, WorkResult.value 2]).started.Nodup :=
  fifo_exactly_once [Event.submit, Event.submit]
    [WorkResult.value 1, WorkResult.value 2] (by decide)

/-- C4: error isolation: when the in-flight wrapper's work fails with error
`e`, its completion step signals only that wrapper's own channel (appending
one rejection record and leaving every previously recorded settlement in
place), does not stop the drain loop - with items still queued the loop
starts the next one and `isRunning` stays true - and with an empty queue it
cleanly returns the instance to idle, usable for further submissions. -/
theorem error_isolation (s : SyncState) (i e : Nat) (hr : s.running = [i]) :
    (s.queue = [] →
      completeStep s (WorkResult.rejection e) =
        { s with running := [], isRunning := false,
                 done := s.done ++ [(i, WorkResult.rejection e, Settlement.rejected e)] }) ∧
    (∀ a as, s.queue = a :: as →
      completeStep s (WorkResult.rejection e) =
        { s with queue := as, running := [a], isRunning := true,
                 started := s.started ++ [a],
                 done := s.done ++ [(i, WorkResult.rejection e, Settlement.rejected e)] }) := by
  obtain ⟨q, flag, rn, st, dn, n⟩ := s
  simp only at hr
  subst hr
  constructor
  · intro hq
    simp only at hq
    subst hq
    rfl
  · intro a as hq
    simp only at hq
    subst hq
    rfl

theorem error_isolation_witness :
    completeStep ⟨[1], true, [0], [0], [], 2⟩ (WorkResult.rejection 5) =
      ⟨[], true, [1], [0, 1], [(0, WorkResult.rejection 5, Settlement.rejected 5)], 2⟩ :=
  (error_isolation ⟨[1], true, [0], [0], [], 2⟩ 0 5 rfl).2 1 [] rfl

/-- C9: a synchronous throw of the supplied `asyncFunction` is handled
identically to an asynchronous rejection: the try/catch of the wrapper
captures it and delivers it as a rejection of the caller's promise with the
identical error, and the completion step still advances the drain loop to
the next queued item (or returns the instance to idle). -/
theorem sync_throw_handled (s : SyncState) (i e : Nat) (hr : s.running = [i]) :
    wrapperSettle (WorkResult.syncThrow e) = Settlement.rejected e ∧
    wrapperSettle (WorkResult.syncThrow e) = wrapperSettle (WorkResult.rejection e) ∧
    (∀ a as, s.queue = a :: as →
      completeStep s (WorkResult.syncThrow e) =
        { s with queue := as, running := [a], isRunning := true,
                 started := s.started ++ [a],
                 done := s.done ++ [(i, WorkResult.syncThrow e, Settlement.rejected e)] }) ∧
    (s.queue = [] →
      completeStep s (WorkResult.syncThrow e) =
        { s with running := [], isRunning := false,
                 done := s.done ++ [(i, WorkResult.syncThrow e, Settlement.rejected e)] }) := by
  obtain ⟨q, flag, rn, st, dn, n⟩ := s
  simp only at hr
  subst hr
  refine ⟨rfl, rfl, ?_, ?_⟩
  · intro a as hq
    simp only at hq
    subst hq
    rfl
  · intro hq
    simp only at hq
    subst hq
    rfl

theorem sync_throw_handled_witness :
    completeStep ⟨[1], true, [0], [0], [], 2⟩ (WorkResult.syncThrow 9) =
      ⟨[], true, [1], [0, 1], [(0, WorkResult.syncThrow 9, Settlement.rejected 9)], 2⟩ :=
  (sync_throw_handled ⟨[1], true, [0], [0], [], 2⟩ 0 9 rfl).2.2.1 1 [] rfl

/-- C10: each completion channel is signalled exactly once: in every
reachable state the recorded settlements name pairwise distinct wrappers
(no promise is ever resolved or rejected twice, and each completion record
carries exactly one of the two settlements by construction of
`wrapperSettle`); and once outcomes for all pending work are delivered,
the signalled wrappers are exactly the submitted ones - each promise
settles exactly once. -/
theorem settle_exactly_once (tr : List Event) (rs : List WorkResult)
    (h : (run initState tr).running.length + (run initState tr).queue.length ≤ rs.length) :
    (doneIds (run initState tr)).Nodup ∧
    doneIds (drainAll (run initState tr) rs) = List.range (run initState tr).nextId := by
  have hI : Inv (run initState tr) := Inv_run tr
  constructor
  · have hall : (doneIds (run initState tr) ++
        ((run initState tr).running ++ (run initState tr).queue)).Nodup := by
      rw [← List.append_assoc, hI.order]
      exact List.nodup_range _
    exact hall.of_append_left
  · obtain ⟨he1, he2⟩ := drain_empties rs _ hI h
    have hI2 : Inv (drainAll (run initState tr) rs) := Inv_drainAll rs _ hI
    have ho := hI2.order
    rw [he1, he2] at ho
    simp only [List.append_nil] at ho
    rw [ho, drainAll_nextId rs (run initState tr)]

theorem settle_exactly_once_witness :
    (doneIds (run initState [Event.submit, Event.submit])).Nodup ∧
    doneIds (drainAll (run initState [Event.submit, Event.submit])
        [WorkResult.rejection 4, WorkResult.value 6]) =
      List.range (run initState [Event.submit, Event.submit]).nextId :=
  settle_exactly_once [Event.submit, Event.submit]
    [WorkResult.rejection 4, WorkResult.value 6] (by decide)

/-- C8 counterexample: the claim predicts that submit returns before the
submitted work begins executing, i.e. that the synchronous extent of an
`execute` call (`executeStep`) never starts a wrapper.  On a fresh (idle)
instance the executor calls `processQueue()` synchronously, which invokes
the wrapper, which invokes `asyncFunction` - the work begins inside the
submit call: `started` grows from `[]` to `[0]` during `executeStep`. -/
theorem submit_defers_counterexample :
    ¬ (executeStep initState).started = initState.started := by decide

/-- C8 amended: submit never waits for any work to settle (no completion
channel is signalled during the submit call, which for promise-returning
work means submit returns before the submitted work's promise settles); on
a busy instance it only appends; but on an idle instance the drain loop is
started synchronously inside the submit call, so the submitted work begins
executing (its synchronous prefix, as the freshly pushed head of the queue)
before submit returns, with the flag left true. -/
theorem submit_prompt_amended (s : SyncState) (hI : Inv s) :
    (executeStep s).done = s.done ∧
    (s.isRunning = true → (executeStep s).started = s.started) ∧
    (s.isRunning = false →
      (executeStep s).started = s.started ++ [s.nextId] ∧
      (executeStep s).isRunning = true) := by
  obtain ⟨q, flag, rn, st, dn, n⟩ := s
  cases flag with
  | false =>
      have hq : q = [] := hI.idle_empty rfl
      subst hq
      refine ⟨rfl, ?_, fun _ => ⟨rfl, rfl⟩⟩
      intro hh
      simp at hh
  | true =>
      refine ⟨rfl, fun _ => rfl, ?_⟩
      intro hh
      simp at hh

theorem submit_prompt_amended_witness :
    (executeStep initState).started = initState.started ++ [initState.nextId] ∧
    (executeStep initState).isRunning = true :=
  (submit_prompt_amended initState Inv_init).2.2 rfl

end Synchronized
